import Mathlib

/-!
Verification of the FLAC metadata library (block codecs, container save
protocol, bounded-retry reader) against its specification.

Modelling conventions (shallow embedding of the TypeScript source):
* byte buffers are lists of naturals; every store writes values reduced
  mod 256 (the Uint8Array / DataView semantics);
* DataView getters are bounds checked: reading past the end of the view
  throws a RangeError in the source, modelled as Option.none;
* Uint8Array.subarray clamps to the available region (drop/take, no error);
* Uint8Array.set throws when the written slice would overflow the target,
  modelled as Option.none on the one write path that can overflow (the
  16-byte md5 region of StreamInfo.write);
* strings are modelled as their byte sequences; the only string operation
  the code performs besides concatenation is toLowerCase, modelled on the
  ASCII range.
-/

namespace Dune

/-- Big-endian value of a byte list (DataView getUint16/32/BigUint64 view
of a stored byte region). -/
def beVal (l : List Nat) : Nat :=
  l.foldl (fun acc b => acc * 256 + b) 0

/-- Big-endian encoding of n into k bytes, most significant first; stores
n mod 2^(8*k), the DataView setUintXX semantics. -/
def beBytes : Nat → Nat → List Nat
  | 0, _ => []
  | k + 1, n => beBytes k (n / 256) ++ [n % 256]

/-- Little-endian value of a byte list (the getUint32(-, true) view). -/
def leVal (l : List Nat) : Nat :=
  l.foldr (fun b acc => b + acc * 256) 0

/-- Little-endian encoding of n into k bytes, least significant first. -/
def leBytes : Nat → Nat → List Nat
  | 0, _ => []
  | k + 1, n => n % 256 :: leBytes k (n / 256)

/-- Bounds-checked big-endian read of k bytes at a given offset: the
DataView getters throw a RangeError when the read would run past the end
of the view, modelled as none. -/
def getUintBE (data : List Nat) (off k : Nat) : Option Nat :=
  if off + k ≤ data.length then some (beVal ((data.drop off).take k)) else none

/-- Bounds-checked little-endian read of 4 bytes (getUint32 with the
littleEndian flag set, used only by the VorbisComment codec). -/
def getU32LE (data : List Nat) (off : Nat) : Option Nat :=
  if off + 4 ≤ data.length then some (leVal ((data.drop off).take 4)) else none

/-- Uint8Array.set: overwrite dst starting at off with src (callers
establish that the slice fits). -/
def setBytes (dst : List Nat) (off : Nat) (src : List Nat) : List Nat :=
  dst.take off ++ src ++ dst.drop (off + src.length)

/-! ## Block codecs (src/flac/blocks.ts) -/

/-- STREAMINFO block fields, as carried by the StreamInfo class. -/
structure StreamInfo where
  minBlockSize : Nat
  maxBlockSize : Nat
  minFrameSize : Nat
  maxFrameSize : Nat
  sampleRate : Nat
  nbChannels : Nat
  bitsPerSample : Nat
  totalSamples : Nat
  md5 : List Nat
deriving DecidableEq, Repr

/-- StreamInfo.load: the DataView reads of the fixed 34-byte layout.
Shifts and masks on the packed 64-bit word are rendered as division and
remainder by the corresponding powers of two. The md5 slice comes from
subarray(18), which clamps rather than failing. -/
def StreamInfo.load (data : List Nat) : Option StreamInfo := do
  let minBlockSize ← getUintBE data 0 2
  let maxBlockSize ← getUintBE data 2 2
  let mfHi ← getUintBE data 4 2
  let mfLo ← getUintBE data 6 1
  let xfHi ← getUintBE data 7 2
  let xfLo ← getUintBE data 9 1
  let w ← getUintBE data 10 8
  return { minBlockSize := minBlockSize
           maxBlockSize := maxBlockSize
           minFrameSize := mfHi * 256 + mfLo
           maxFrameSize := xfHi * 256 + xfLo
           sampleRate := w / 2 ^ 44
           nbChannels := w / 2 ^ 41 % 8 + 1
           bitsPerSample := w / 2 ^ 36 % 32 + 1
           totalSamples := w % 2 ^ 36
           md5 := data.drop 18 }

/-- StreamInfo.write: the sequence of DataView stores into a fresh 34-byte
buffer.  The BigInt packing ORs four fields shifted into disjoint bit
ranges, rendered here as a sum of bounded addends.  The channel and
bits-per-sample fields subtract 1 before masking, in Int to cover a
caller-supplied 0 the way JS BigInt two's-complement masking does.
data.set(md5, 18) throws when md5 is longer than the remaining 16 bytes
(none); a shorter md5 leaves the zero fill in place. -/
def StreamInfo.write (s : StreamInfo) : Option (List Nat) :=
  if s.md5.length > 16 then none else
  let chanField := ((((s.nbChannels : Int) - 1)) % 8).toNat
  let bpsField := ((((s.bitsPerSample : Int) - 1)) % 32).toNat
  let w := s.sampleRate % 2 ^ 20 * 2 ^ 44 + chanField * 2 ^ 41
    + bpsField * 2 ^ 36 + s.totalSamples % 2 ^ 36
  some (beBytes 2 s.minBlockSize ++ beBytes 2 s.maxBlockSize
    ++ beBytes 2 (s.minFrameSize % 2 ^ 32 / 256) ++ beBytes 1 s.minFrameSize
    ++ beBytes 2 (s.maxFrameSize % 2 ^ 32 / 256 % 256) ++ beBytes 1 s.maxFrameSize
    ++ beBytes 8 w ++ s.md5 ++ List.replicate (16 - s.md5.length) 0)

/-- Padding.load keeps only the body length. -/
def Padding.load (data : List Nat) : Nat := data.length

/-- Padding.write regenerates a zero body of the stored length. -/
def Padding.write (length : Nat) : List Nat := List.replicate length 0

structure Application where
  appId : Nat
  appData : List Nat
deriving DecidableEq, Repr

def Application.load (data : List Nat) : Option Application := do
  let appId ← getUintBE data 0 4
  return { appId := appId, appData := data.drop 4 }

def Application.write (a : Application) : List Nat :=
  beBytes 4 a.appId ++ a.appData

structure Seekpoint where
  samples : Nat
  offset : Nat
  targetSamples : Nat
deriving DecidableEq, Repr

/-- Seektable.load loop: for (i = 0; i < data.length; i += 18) read three
fields at i, i+8, i+16.  The loop guard only checks i, so a trailing
partial entry makes the DataView reads run past the end (none). -/
def Seektable.loadPoints (data : List Nat) (i : Nat) : Option (List Seekpoint) :=
  if i < data.length then do
    let samples ← getUintBE data i 8
    let offset ← getUintBE data (i + 8) 8
    let targetSamples ← getUintBE data (i + 16) 2
    let rest ← Seektable.loadPoints data (i + 18)
    return ⟨samples, offset, targetSamples⟩ :: rest
  else some []
termination_by data.length - i

def Seektable.load (data : List Nat) : Option (List Seekpoint) :=
  Seektable.loadPoints data 0

def Seektable.write (seekpoints : List Seekpoint) : List Nat :=
  (seekpoints.map (fun p =>
    beBytes 8 p.samples ++ beBytes 8 p.offset ++ beBytes 2 p.targetSamples)).flatten

/-- ASCII toLowerCase, the only case mapping the comment keys exercise. -/
def toLowerByte (b : Nat) : Nat := if 65 ≤ b ∧ b ≤ 90 then b + 32 else b

/-- The insertion-ordered Map from lower-cased key to the pushed values.
A comment without "=" stores undefined as its value (none here). -/
abbrev TagMap := List (List Nat × List (Option (List Nat)))

/-- text.split("=", 2): first element is the run before the first "=",
second is the run between the first and second "=" (absent when the text
has no "=" at all). -/
def splitEq2 (text : List Nat) : List Nat × Option (List Nat) :=
  let key := text.takeWhile (fun b => b ≠ 61)
  if key.length = text.length then (key, none)
  else (key, some ((text.drop (key.length + 1)).takeWhile (fun b => b ≠ 61)))

/-- tags.get(key).push(value) / tags.set(key, [value]): appending to the
value list of an existing key keeps its position, a new key goes last. -/
def tagInsert (tags : TagMap) (key : List Nat) (v : Option (List Nat)) : TagMap :=
  match tags with
  | [] => [(key, [v])]
  | (k, vs) :: rest =>
    if k = key then (k, vs ++ [v]) :: rest else (k, vs) :: tagInsert rest key v

def tagLookup (tags : TagMap) (key : List Nat) : Option (List (Option (List Nat))) :=
  match tags with
  | [] => none
  | (k, vs) :: rest => if k = key then some vs else tagLookup rest key

structure VorbisComment where
  vendor : List Nat
  tags : TagMap
deriving DecidableEq, Repr

/-- The comment loop of VorbisComment.load: for each of the declared
number of comments, read a little-endian length, slice the text
(subarray clamps), split at "=", lower-case the key and push the value. -/
def VorbisComment.loadComments (data : List Nat) :
    Nat → Nat → TagMap → Option TagMap
  | 0, _, tags => some tags
  | n + 1, offset, tags => do
    let len ← getU32LE data offset
    let text := (data.drop (offset + 4)).take len
    let p := splitEq2 text
    VorbisComment.loadComments data n (offset + 4 + len)
      (tagInsert tags (p.1.map toLowerByte) p.2)

def VorbisComment.load (data : List Nat) : Option VorbisComment := do
  let vendorLen ← getU32LE data 0
  let vendor := (data.drop 4).take vendorLen
  let userCommentLen ← getU32LE data (4 + vendorLen)
  let tags ← VorbisComment.loadComments data userCommentLen (4 + vendorLen + 4) []
  return { vendor := vendor, tags := tags }

/-- Bytes of the string "undefined": writing a tag whose value is
undefined concatenates key + "=" + undefined in JS. -/
def undefinedBytes : List Nat := [117, 110, 100, 101, 102, 105, 110, 101, 100]

def VorbisComment.entryBytes (key : List Nat) (v : Option (List Nat)) : List Nat :=
  key ++ [61] ++ (match v with | some s => s | none => undefinedBytes)

def VorbisComment.write (vc : VorbisComment) : List Nat :=
  let entries :=
    (vc.tags.map (fun kv => kv.2.map (fun v => VorbisComment.entryBytes kv.1 v))).flatten
  leBytes 4 vc.vendor.length ++ vc.vendor
    ++ leBytes 4 entries.length
    ++ (entries.map (fun e => leBytes 4 e.length ++ e)).flatten

/-- CueSheet is a pass-through codec. -/
def CueSheet.load (data : List Nat) : List Nat := data

def CueSheet.write (rawData : List Nat) : List Nat := rawData

structure Picture where
  type : Nat
  mime : List Nat
  description : List Nat
  width : Nat
  height : Nat
  depth : Nat
  colors : Nat
  pictureRaw : List Nat
deriving DecidableEq, Repr

def Picture.load (data : List Nat) : Option Picture := do
  let type ← getUintBE data 0 4
  let mimeLen ← getUintBE data 4 4
  let mime := (data.drop 8).take mimeLen
  let descLen ← getUintBE data (8 + mimeLen) 4
  let description := (data.drop (12 + mimeLen)).take descLen
  let width ← getUintBE data (12 + mimeLen + descLen) 4
  let height ← getUintBE data (16 + mimeLen + descLen) 4
  let depth ← getUintBE data (20 + mimeLen + descLen) 4
  let colors ← getUintBE data (24 + mimeLen + descLen) 4
  let pictureLen ← getUintBE data (28 + mimeLen + descLen) 4
  return { type := type, mime := mime, description := description
           width := width, height := height, depth := depth, colors := colors
           pictureRaw := (data.drop (32 + mimeLen + descLen)).take pictureLen }

def Picture.write (p : Picture) : List Nat :=
  beBytes 4 p.type ++ beBytes 4 p.mime.length ++ p.mime
    ++ beBytes 4 p.description.length ++ p.description
    ++ beBytes 4 p.width ++ beBytes 4 p.height
    ++ beBytes 4 p.depth ++ beBytes 4 p.colors
    ++ beBytes 4 p.pictureRaw.length ++ p.pictureRaw

/-! ## Block dispatch (the MetadataBlock class hierarchy as a sum type) -/

inductive BlockType where
  | streaminfo
  | padding
  | application
  | seektable
  | vorbisComment
  | cuesheet
  | picture
deriving DecidableEq, Repr

/-- Numeric value of the BlockType enum. -/
def BlockType.val : BlockType → Nat
  | .streaminfo => 0
  | .padding => 1
  | .application => 2
  | .seektable => 3
  | .vorbisComment => 4
  | .cuesheet => 5
  | .picture => 6

inductive MetadataBlock where
  | streamInfo (s : StreamInfo)
  | padding (length : Nat)
  | application (a : Application)
  | seektable (seekpoints : List Seekpoint)
  | vorbisComment (v : VorbisComment)
  | cueSheet (rawData : List Nat)
  | picture (p : Picture)
deriving DecidableEq, Repr

def MetadataBlock.TYPE : MetadataBlock → BlockType
  | .streamInfo _ => .streaminfo
  | .padding _ => .padding
  | .application _ => .application
  | .seektable _ => .seektable
  | .vorbisComment _ => .vorbisComment
  | .cueSheet _ => .cuesheet
  | .picture _ => .picture

/-- Virtual dispatch of block.write(). Only StreamInfo.write can throw
(oversized md5), the others are total. -/
def MetadataBlock.write : MetadataBlock → Option (List Nat)
  | .streamInfo s => s.write
  | .padding length => some (Padding.write length)
  | .application a => some (Application.write a)
  | .seektable seekpoints => some (Seektable.write seekpoints)
  | .vorbisComment v => some (VorbisComment.write v)
  | .cueSheet rawData => some (CueSheet.write rawData)
  | .picture p => some (Picture.write p)

/-! ## Container save protocol (src/flac/mod.ts) -/

/-- blockType |= 0x80 on the last written block. -/
def headerTypeByte (t : BlockType) (isLast : Bool) : Nat :=
  if isLast then t.val ||| 128 else t.val

/-- The 32-bit header word (blockType << 24) | block.length, as stored by
setUint32 (operands reduced to 32 bits). -/
def encodeBlockHeader (typeByte len : Nat) : Nat :=
  ((typeByte % 256) <<< 24) ||| (len % 2 ^ 32)

namespace FLAC

/-- First loop of save(): call write() on every block in order, keep the
(TYPE, bytes) pairs of the non-Padding ones. -/
def writtenBlocks : List MetadataBlock → Option (List (BlockType × List Nat))
  | [] => some []
  | b :: rest => do
    let d ← b.write
    let tail ← writtenBlocks rest
    if b.TYPE = .padding then pure tail else pure ((b.TYPE, d) :: tail)

/-- Second loop of save(): header word plus body for each kept block.  The
source tests i === blocks.length - 1; in this recursion over the remaining
blocks that condition is rest.isEmpty. -/
def emit : List (BlockType × List Nat) → List (Nat × List Nat)
  | [] => []
  | (t, d) :: rest =>
    (encodeBlockHeader (headerTypeByte t rest.isEmpty) d.length, d) :: emit rest

/-- The rewritten metadata region: 4 header bytes then the body, for each
written block. -/
def savedMeta (blocks : List (BlockType × List Nat)) : List Nat :=
  ((emit blocks).map (fun hd => beBytes 4 hd.1 ++ hd.2)).flatten

/-- save(): encode all blocks, read the frame region (seek frameStart +
readAll = drop frameStart), truncate the file to the 4 signature bytes
(take 4), then write headers and bodies followed by the buffered frame
bytes. -/
def save (file : List Nat) (frameStart : Nat) (metadata : List MetadataBlock) :
    Option (List Nat) := do
  let blocks ← writtenBlocks metadata
  let frameData := file.drop frameStart
  return file.take 4 ++ savedMeta blocks ++ frameData

end FLAC

/-! ## Bounded-retry reader (src/flac/utils.ts readFileChunks) -/

/-- The while loop of readFileChunks.  The byte source is modelled as the
list of successive read results: each call to file.read delivers the next
chunk (never more than the requested len - bytesRead bytes, hence the
take), and a read past the end of the stream returns null — here the
empty chunk list — which breaks the loop.  When bytesRead has reached len
the loop also stops; both exits return blockData as it stands. -/
def readFileChunksGo (len : Nat) (bytesRead : Nat) (chunks : List (List Nat))
    (blockData : List Nat) : List Nat :=
  match chunks with
  | [] => blockData
  | c :: cs =>
    if bytesRead < len then
      let r := c.take (len - bytesRead)
      readFileChunksGo len (bytesRead + r.length) cs (setBytes blockData bytesRead r)
    else blockData

/-- readFileChunks(file, len): fill a zero buffer of size len from the
source, stopping at end-of-input. -/
def readFileChunks (len : Nat) (chunks : List (List Nat)) : List Nat :=
  readFileChunksGo len 0 chunks (List.replicate len 0)

/-! ## Specification-side helpers (used only to state properties) -/

/-- The bytes a chunk stream can deliver towards a request of rem bytes:
each chunk contributes at most the bytes still missing, and delivery stops
once the request is satisfied. -/
def collectBytes : Nat → List (List Nat) → List Nat
  | _, [] => []
  | rem, c :: cs =>
    if rem = 0 then []
    else c.take rem ++ collectBytes (rem - (c.take rem).length) cs

/-- The wire layout of a VorbisComment body holding the given vendor
string and the given raw comment texts (little-endian length prefixes, as
in VorbisComment.write). Used to quantify over well-formed bodies. -/
def vorbisBody (vendor : List Nat) (texts : List (List Nat)) : List Nat :=
  leBytes 4 vendor.length ++ vendor ++ leBytes 4 texts.length
    ++ (texts.map (fun t => leBytes 4 t.length ++ t)).flatten

/-- One step of the comment loop, as a pure function on the tag map. -/
def tagStep (tags : TagMap) (text : List Nat) : TagMap :=
  tagInsert tags ((splitEq2 text).1.map toLowerByte) (splitEq2 text).2

/-! ## Byte-level lemmas -/

@[simp] theorem beBytes_length (k n : Nat) : (beBytes k n).length = k := by
  induction k generalizing n with
  | zero => rfl
  | succ k ih => simp [beBytes, ih]

@[simp] theorem leBytes_length (k n : Nat) : (leBytes k n).length = k := by
  induction k generalizing n with
  | zero => rfl
  | succ k ih => simp [leBytes, ih]

theorem beVal_foldl (l : List Nat) (acc : Nat) :
    l.foldl (fun a b => a * 256 + b) acc = acc * 256 ^ l.length + beVal l := by
  induction l generalizing acc with
  | nil => simp [beVal]
  | cons x xs ih =>
    have hx : beVal (x :: xs) = x * 256 ^ xs.length + beVal xs := by
      show List.foldl _ (0 * 256 + x) xs = _
      rw [Nat.zero_mul, Nat.zero_add, ih x]
    simp only [List.foldl_cons, List.length_cons]
    rw [ih (acc * 256 + x), hx]
    ring

theorem beVal_append (a b : List Nat) :
    beVal (a ++ b) = beVal a * 256 ^ b.length + beVal b := by
  show List.foldl _ 0 (a ++ b) = _
  rw [List.foldl_append, beVal_foldl]
  rfl

theorem beVal_beBytes (k n : Nat) : beVal (beBytes k n) = n % 256 ^ k := by
  induction k generalizing n with
  | zero => simp [beBytes, beVal, Nat.mod_one]
  | succ k ih =>
    rw [beBytes, beVal_append, ih]
    simp only [List.length_singleton, pow_one]
    have hv : beVal [n % 256] = n % 256 := by simp [beVal]
    rw [hv]
    have h256 : (256 : Nat) ^ (k + 1) = 256 * 256 ^ k := by ring
    rw [h256, Nat.mod_mul]
    ring

theorem leVal_leBytes (k n : Nat) : leVal (leBytes k n) = n % 256 ^ k := by
  induction k generalizing n with
  | zero => simp [leBytes, leVal, Nat.mod_one]
  | succ k ih =>
    show leVal (n % 256 :: leBytes k (n / 256)) = n % 256 ^ (k + 1)
    have hc : leVal (n % 256 :: leBytes k (n / 256))
        = n % 256 + leVal (leBytes k (n / 256)) * 256 := rfl
    rw [hc, ih]
    have h256 : (256 : Nat) ^ (k + 1) = 256 * 256 ^ k := by ring
    rw [h256, Nat.mod_mul]
    ring

/-- Reading a field that sits immediately after a prefix of known length. -/
theorem getUintBE_at (u f v : List Nat) (k : Nat) (hf : f.length = k) :
    getUintBE (u ++ f ++ v) u.length k = some (beVal f) := by
  unfold getUintBE
  have hlen : u.length + k ≤ (u ++ f ++ v).length := by
    simp only [List.length_append, hf]; omega
  rw [if_pos hlen]
  congr 1
  rw [List.append_assoc, List.drop_left, List.take_left' hf]

theorem getU32LE_at (u f v : List Nat) (hf : f.length = 4) :
    getU32LE (u ++ f ++ v) u.length = some (leVal f) := by
  unfold getU32LE
  have hlen : u.length + 4 ≤ (u ++ f ++ v).length := by
    simp only [List.length_append, hf]; omega
  rw [if_pos hlen]
  congr 1
  rw [List.append_assoc, List.drop_left, List.take_left' hf]

/-- Variant of the field-read lemma with the offset given numerically. -/
theorem getUintBE_at' (u f v : List Nat) (off k : Nat) (hu : u.length = off)
    (hf : f.length = k) : getUintBE (u ++ f ++ v) off k = some (beVal f) := by
  rw [← hu]; exact getUintBE_at u f v k hf

theorem getU32LE_at' (u f v : List Nat) (off : Nat) (hu : u.length = off)
    (hf : f.length = 4) : getU32LE (u ++ f ++ v) off = some (leVal f) := by
  rw [← hu]; exact getU32LE_at u f v hf

/-! ## Header-word lemmas -/

theorem lor_shiftRight (x y n : Nat) :
    (x ||| y) >>> n = (x >>> n) ||| (y >>> n) := by
  apply Nat.eq_of_testBit_eq
  intro i
  simp [Nat.testBit_shiftRight, Nat.testBit_lor]

theorem encodeBlockHeader_flag (tb len : Nat) (h : len % 2 ^ 32 < 2 ^ 31) :
    encodeBlockHeader tb len / 2 ^ 31 = tb % 256 / 128 := by
  rw [encodeBlockHeader, ← Nat.shiftRight_eq_div_pow, lor_shiftRight]
  have h1 : (len % 2 ^ 32) >>> 31 = 0 := by
    rw [Nat.shiftRight_eq_div_pow]; exact Nat.div_eq_of_lt h
  have h2 : ((tb % 256) <<< 24) >>> 31 = tb % 256 / 128 := by
    rw [Nat.shiftLeft_eq, Nat.shiftRight_eq_div_pow]
    have e : (2 : Nat) ^ 31 = 2 ^ 24 * 2 ^ 7 := by norm_num
    rw [e, ← Nat.div_div_eq_div_mul,
      Nat.mul_div_cancel _ (by norm_num : 0 < (2 : Nat) ^ 24)]
    norm_num
  rw [h1, h2]
  simp

/-- C6 (amended): save applies no size check to the block length.  The
length is OR-ed into the 32-bit header word, so the stored 24-bit length
field is the length mod 2^24 and the remaining high bits of the length
leak into the type/flag byte instead of raising any error. -/
theorem encodeBlockHeader_no_size_check (typeByte len : Nat) :
    encodeBlockHeader typeByte len % 2 ^ 24 = len % 2 ^ 24
    ∧ encodeBlockHeader typeByte len / 2 ^ 24
        = (typeByte % 256) ||| (len % 2 ^ 32 / 2 ^ 24) := by
  constructor
  · rw [encodeBlockHeader, ← Nat.and_pow_two_sub_one_eq_mod, Nat.land_comm,
      Nat.and_or_distrib_left, Nat.land_comm _ ((typeByte % 256) <<< 24),
      Nat.land_comm _ (len % 2 ^ 32), Nat.and_pow_two_sub_one_eq_mod,
      Nat.and_pow_two_sub_one_eq_mod, Nat.shiftLeft_eq, Nat.mul_mod_left,
      Nat.mod_mod_of_dvd _ (by norm_num : (2 : Nat) ^ 24 ∣ 2 ^ 32)]
    simp
  · rw [encodeBlockHeader, ← Nat.shiftRight_eq_div_pow, lor_shiftRight]
    congr 1
    · rw [Nat.shiftLeft_eq, Nat.shiftRight_eq_div_pow,
        Nat.mul_div_cancel _ (by norm_num : 0 < (2 : Nat) ^ 24)]
    · rw [Nat.shiftRight_eq_div_pow]

/-- C6 (counterexample): encoding a header for a body of 0x1000000 bytes
does not fail; the stored length field becomes 0 and the type byte is
corrupted to 1, contradicting the claimed SizeLimitExceeded failure. -/
theorem header_encode_length_overflow_corrupts :
    encodeBlockHeader (headerTypeByte BlockType.streaminfo false) 16777216 = 16777216
    ∧ encodeBlockHeader (headerTypeByte BlockType.streaminfo false) 16777216 % 2 ^ 24 = 0
    ∧ encodeBlockHeader (headerTypeByte BlockType.streaminfo false) 16777216 / 2 ^ 24 = 1 := by
  decide

/-! ## Claims about the save protocol -/

/-- C2: whatever the in-memory metadata blocks are at save time, a
successful save writes the original first 4 file bytes, then the rebuilt
metadata region, then — unchanged, byte for byte — exactly the bytes of
the file from the recorded frame start to end of file.  The frame bytes
are never decoded or transformed. -/
theorem save_appends_frame_region_unchanged (file : List Nat) (frameStart : Nat)
    (metadata : List MetadataBlock) (out : List Nat)
    (h : FLAC.save file frameStart metadata = some out) :
    ∃ meta, out = file.take 4 ++ meta ++ file.drop frameStart := by
  unfold FLAC.save at h
  cases hw : FLAC.writtenBlocks metadata with
  | none => rw [hw] at h; simp at h
  | some bs =>
    rw [hw] at h
    simp at h
    exact ⟨FLAC.savedMeta bs, by rw [← h, List.append_assoc]⟩

theorem save_appends_frame_region_unchanged_witness :
    ∃ meta, ([102, 76, 97, 67, 5, 0, 0, 2, 5, 6, 130, 0, 0, 5, 0, 0, 0, 7, 9, 77, 88] : List Nat)
      = ([102, 76, 97, 67, 1, 2, 3, 4, 5, 77, 88] : List Nat).take 4 ++ meta
        ++ ([102, 76, 97, 67, 1, 2, 3, 4, 5, 77, 88] : List Nat).drop 9 :=
  save_appends_frame_region_unchanged _ 9
    [.padding 2, .cueSheet [5, 6], .application ⟨7, [9]⟩] _ (by decide)

/-! ## Claims about StreamInfo -/

/-- C1 (code evaluated at the failing input): an in-range StreamInfo with
maxFrameSize = 65536 (a legal uint24) does not round-trip: write zeroes
the high byte of maxFrameSize — the store masks (maxFrameSize >>> 8) with
0xFF, unlike the minFrameSize path — so load returns 0 for it.  Every
other field survives. -/
theorem streaminfo_roundtrip_maxFrameSize_lost :
    (StreamInfo.write ⟨4096, 4096, 1, 65536, 44100, 2, 16, 9, List.replicate 16 0⟩).bind
        StreamInfo.load
      = some ⟨4096, 4096, 1, 0, 44100, 2, 16, 9, List.replicate 16 0⟩ := by
  decide

/-- C3 (counterexample): encoding a StreamInfo with nbChannels = 9 and
bitsPerSample = 33 does not fail with any range error — write succeeds
and silently masks both fields, which decode back as 1 and 1. -/
theorem streaminfo_write_accepts_out_of_range_fields :
    (StreamInfo.write ⟨16, 16, 1, 2, 8000, 9, 33, 0, List.replicate 16 0⟩).bind
        StreamInfo.load
      = some ⟨16, 16, 1, 2, 8000, 1, 1, 0, List.replicate 16 0⟩ := by
  decide

/-- C7 (counterexample): an 18-byte region — far shorter than the 34
bytes the fixed fields require — decodes without any error: every
DataView read fits in 18 bytes and the md5 tail is clamped to the empty
list by subarray. -/
theorem streaminfo_load_short_region_no_failure :
    StreamInfo.load (List.replicate 18 0) = some ⟨0, 0, 0, 0, 0, 1, 1, 0, []⟩ := by
  decide

/-! ## Claims about VorbisComment decoding -/

theorem tagLookup_tagInsert (tags : TagMap) (key : List Nat)
    (v : Option (List Nat)) :
    tagLookup (tagInsert tags key v) key
      = some ((tagLookup tags key).getD [] ++ [v]) := by
  induction tags with
  | nil => simp [tagInsert, tagLookup]
  | cons kv rest ih =>
    obtain ⟨k, vs⟩ := kv
    by_cases hk : k = key
    · simp [tagInsert, tagLookup, hk]
    · simp [tagInsert, tagLookup, hk, ih]

theorem tagLookup_tagInsert_ne (tags : TagMap) (k2 key : List Nat)
    (v : Option (List Nat)) (hk : ¬ k2 = key) :
    tagLookup (tagInsert tags k2 v) key = tagLookup tags key := by
  induction tags with
  | nil => simp [tagInsert, tagLookup, hk]
  | cons kv rest ih =>
    obtain ⟨k, vs⟩ := kv
    by_cases hkk : k = k2
    · subst hkk
      simp only [tagInsert, if_pos rfl]
      simp [tagLookup, hk]
    · simp only [tagInsert, if_neg hkk]
      by_cases hkey : k = key
      · simp [tagLookup, hkey]
      · simp [tagLookup, hkey, ih]

/-- C9: a body holding the comments Title=a and title=b (in that order)
decodes to the single lower-cased key title with the value sequence
[a, b]; and in general a value inserted for a key is appended at the end
of that key's existing value sequence, keeping first-seen order. -/
theorem vorbis_case_insensitive_merge :
    VorbisComment.load
        (leBytes 4 0 ++ leBytes 4 2
          ++ leBytes 4 7 ++ [84, 105, 116, 108, 101, 61, 97]
          ++ leBytes 4 7 ++ [116, 105, 116, 108, 101, 61, 98])
      = some ⟨[], [([116, 105, 116, 108, 101], [some [97], some [98]])]⟩
    ∧ ∀ (tags : TagMap) (key : List Nat) (v : Option (List Nat)),
        tagLookup (tagInsert tags key v) key
          = some ((tagLookup tags key).getD [] ++ [v]) := by
  exact ⟨by decide, fun tags key v => tagLookup_tagInsert tags key v⟩

/-! ## Claims about the bounded-retry reader -/

theorem collectBytes_length_le (cs : List (List Nat)) :
    ∀ rem, (collectBytes rem cs).length ≤ rem := by
  induction cs with
  | nil => intro rem; simp [collectBytes]
  | cons c cs ih =>
    intro rem
    by_cases h : rem = 0
    · simp [collectBytes, h]
    · simp only [collectBytes, if_neg h, List.length_append]
      have h1 : (c.take rem).length ≤ rem := by
        rw [List.length_take]; exact Nat.min_le_left _ _
      have h2 := ih (rem - (c.take rem).length)
      omega

theorem setBytes_append_replicate (p r : List Nat) (m : Nat) :
    setBytes (p ++ List.replicate m 0) p.length r
      = (p ++ r) ++ List.replicate (m - r.length) 0 := by
  rw [setBytes, List.take_left' rfl, List.drop_append, List.drop_replicate,
    List.append_assoc]

theorem readFileChunksGo_spec (cs : List (List Nat)) (len : Nat) :
    ∀ (bytesRead : Nat) (p : List Nat), p.length = bytesRead → bytesRead ≤ len →
      readFileChunksGo len bytesRead cs (p ++ List.replicate (len - bytesRead) 0)
        = p ++ collectBytes (len - bytesRead) cs
          ++ List.replicate
              (len - bytesRead - (collectBytes (len - bytesRead) cs).length) 0 := by
  induction cs with
  | nil =>
    intro bytesRead p hp hbr
    simp [readFileChunksGo, collectBytes]
  | cons c cs ih =>
    intro bytesRead p hp hbr
    subst hp
    by_cases hlt : p.length < len
    · have hrem : ¬ (len - p.length = 0) := by omega
      have hrle : (c.take (len - p.length)).length ≤ len - p.length := by
        rw [List.length_take]; exact Nat.min_le_left _ _
      simp only [readFileChunksGo]
      rw [if_pos hlt, setBytes_append_replicate p _ _]
      have e1 : len - p.length - (c.take (len - p.length)).length
          = len - (p.length + (c.take (len - p.length)).length) := by omega
      rw [e1, ih (p.length + (c.take (len - p.length)).length)
        (p ++ c.take (len - p.length)) (by simp) (by omega)]
      simp only [collectBytes, if_neg hrem]
      rw [e1]
      have e2 : len - (p.length + (c.take (len - p.length)).length)
            - (collectBytes (len - (p.length + (c.take (len - p.length)).length)) cs).length
          = len - p.length
            - (c.take (len - p.length)
              ++ collectBytes (len - (p.length + (c.take (len - p.length)).length)) cs).length := by
        simp only [List.length_append]
        omega
      rw [e2]
      simp [List.append_assoc]
    · have h0 : len - p.length = 0 := by omega
      simp only [readFileChunksGo]
      rw [if_neg hlt]
      simp [h0, collectBytes]

/-- C4 (amended): readFileChunks never fails.  It always returns a buffer
of exactly the requested length: the bytes the source delivered before
end-of-input at the front, zero padding behind.  Only when the source
supplies all the bytes is the buffer fully filled; a premature
end-of-input is silently absorbed, no error of any kind is raised. -/
theorem readFileChunks_spec (len : Nat) (chunks : List (List Nat)) :
    readFileChunks len chunks
      = collectBytes len chunks
        ++ List.replicate (len - (collectBytes len chunks).length) 0
    ∧ (readFileChunks len chunks).length = len := by
  have h := readFileChunksGo_spec chunks len 0 [] rfl (Nat.zero_le _)
  simp only [Nat.sub_zero, List.nil_append] at h
  rw [readFileChunks]
  refine ⟨h, ?_⟩
  rw [h]
  have hle := collectBytes_length_le chunks len
  simp only [List.length_append, List.length_replicate]
  omega

/-- C4 (counterexample): requesting 2 bytes from a source that delivers a
single byte 7 and then reports end-of-input returns the buffer [7, 0] —
a zero-padded buffer, not an UnexpectedEof failure. -/
theorem readFileChunks_eof_returns_padded_buffer :
    readFileChunks 2 [[7]] = [7, 0] := by decide

/-! ## Claims about SeekTable decoding -/

theorem loadPoints_ok (data : List Nat) :
    ∀ k i, data.length - i = 18 * k →
      ∃ pts, Seektable.loadPoints data i = some pts ∧ pts.length = k := by
  intro k
  induction k with
  | zero =>
    intro i hi
    rw [Seektable.loadPoints, if_neg (by omega)]
    exact ⟨[], rfl, rfl⟩
  | succ k ih =>
    intro i hi
    have h18 : i + 18 ≤ data.length := by omega
    obtain ⟨pts, hpts, hlen⟩ := ih (i + 18) (by omega)
    rw [Seektable.loadPoints, if_pos (by omega)]
    rw [getUintBE, if_pos (by omega), getUintBE, if_pos (by omega),
      getUintBE, if_pos (by omega)]
    simp only [Option.bind_eq_bind, Option.some_bind, hpts]
    exact ⟨_, rfl, by simp [hlen]⟩

theorem loadPoints_fail (data : List Nat) :
    ∀ n i, data.length - i = n → (data.length - i) % 18 ≠ 0 →
      Seektable.loadPoints data i = none := by
  intro n
  induction n using Nat.strong_induction_on with
  | _ n ih =>
    intro i hn hmod
    have hi : i < data.length := by omega
    rw [Seektable.loadPoints, if_pos hi]
    by_cases h18 : i + 18 ≤ data.length
    · have hrec : Seektable.loadPoints data (i + 18) = none := by
        refine ih (n - 18) (by omega) (i + 18) (by omega) ?_
        omega
      rw [getUintBE, if_pos (by omega), getUintBE, if_pos (by omega),
        getUintBE, if_pos (by omega)]
      simp [hrec]
    · by_cases h8 : i + 8 ≤ data.length
      · by_cases h16 : i + 8 + 8 ≤ data.length
        · rw [getUintBE, if_pos (by omega), getUintBE, if_pos (by omega),
            getUintBE, if_neg (by omega)]
          simp
        · rw [getUintBE, if_pos (by omega), getUintBE, if_neg (by omega)]
          simp
      · rw [getUintBE, if_neg (by omega)]
        simp

/-- C5 (amended): a SeekTable body decodes successfully exactly when its
length is a multiple of 18, yielding length / 18 seek points.  A body
with a trailing partial entry does not drop the remainder silently: the
loop guard only tests the entry start offset, so the reads of the partial
entry run past the end of the region and decoding fails. -/
theorem seektable_load_multiple_of_18 (data : List Nat) :
    (∀ k, data.length = 18 * k →
      ∃ pts, Seektable.load data = some pts ∧ pts.length = k)
    ∧ (data.length % 18 ≠ 0 → Seektable.load data = none) := by
  constructor
  · intro k hk
    exact loadPoints_ok data k 0 (by omega)
  · intro h
    exact loadPoints_fail data data.length 0 (by omega) (by omega)

theorem seektable_load_multiple_of_18_witness :
    ∃ pts, Seektable.load (List.replicate 36 2) = some pts ∧ pts.length = 2 :=
  (seektable_load_multiple_of_18 (List.replicate 36 2)).1 2 (by decide)

/-- C5 (counterexample): a 19-byte body does not decode to one seek point
with the extra byte dropped — the loop re-enters at offset 18 and the
8-byte read there is out of range, so the decode fails instead. -/
theorem seektable_load_partial_entry_fails :
    Seektable.load (List.replicate 19 0) = none :=
  loadPoints_fail (List.replicate 19 0) 19 0 (by decide) (by decide)

/-! ## Symbolic StreamInfo round-trip -/

/-- C7 (amended): StreamInfo decoding rejects only regions shorter than
18 bytes (the last fixed-offset DataView read fails); any region of 18 or
more bytes — including ones shorter than the 34 bytes the full layout
requires — decodes successfully, with the md5 field silently clamped to
whatever bytes follow offset 18.  There is no full-length TruncatedBlock
check and short tails are not rejected. -/
theorem streaminfo_load_truncation (data : List Nat) :
    (data.length < 18 → StreamInfo.load data = none)
    ∧ (18 ≤ data.length →
        ∃ s, StreamInfo.load data = some s ∧ s.md5 = data.drop 18) := by
  constructor
  · intro h
    simp only [StreamInfo.load, getUintBE, Option.bind_eq_bind]
    by_cases c1 : 0 + 2 ≤ data.length
    · rw [if_pos c1]
      simp only [Option.some_bind]
      by_cases c2 : 2 + 2 ≤ data.length
      · rw [if_pos c2]
        simp only [Option.some_bind]
        by_cases c3 : 4 + 2 ≤ data.length
        · rw [if_pos c3]
          simp only [Option.some_bind]
          by_cases c4 : 6 + 1 ≤ data.length
          · rw [if_pos c4]
            simp only [Option.some_bind]
            by_cases c5 : 7 + 2 ≤ data.length
            · rw [if_pos c5]
              simp only [Option.some_bind]
              by_cases c6 : 9 + 1 ≤ data.length
              · rw [if_pos c6]
                simp only [Option.some_bind]
                rw [if_neg (by omega)]
                simp
              · rw [if_neg c6]; simp
            · rw [if_neg c5]; simp
          · rw [if_neg c4]; simp
        · rw [if_neg c3]; simp
      · rw [if_neg c2]; simp
    · rw [if_neg c1]; simp
  · intro h
    simp only [StreamInfo.load, getUintBE, Option.bind_eq_bind]
    rw [if_pos (by omega), if_pos (by omega), if_pos (by omega),
      if_pos (by omega), if_pos (by omega), if_pos (by omega),
      if_pos (by omega)]
    simp only [Option.some_bind]
    exact ⟨_, rfl, rfl⟩

theorem streaminfo_load_truncation_witness :
    ∃ s, StreamInfo.load (List.replicate 20 7) = some s
      ∧ s.md5 = (List.replicate 20 7).drop 18 :=
  (streaminfo_load_truncation (List.replicate 20 7)).2 (by decide)

/-- C3 (amended): StreamInfo encoding never rejects a field value.  For
any StreamInfo whose md5 fits its 16-byte slot, write succeeds, and
decoding the written bytes shows every numeric field silently reduced to
its declared bit width; in particular nbChannels and bitsPerSample are
masked to 3 and 5 bits after the minus-one bias (so 9 channels decode
back as 1, 33 bits as 1) instead of failing with a range error. -/
theorem streaminfo_write_masks_fields (s : StreamInfo) (h : s.md5.length ≤ 16) :
    ∃ bytes, StreamInfo.write s = some bytes ∧
      StreamInfo.load bytes = some
        { minBlockSize := s.minBlockSize % 2 ^ 16
          maxBlockSize := s.maxBlockSize % 2 ^ 16
          minFrameSize := s.minFrameSize % 2 ^ 32 / 256 % 2 ^ 16 * 256
            + s.minFrameSize % 256
          maxFrameSize := s.maxFrameSize % 2 ^ 32 / 256 % 256 * 256
            + s.maxFrameSize % 256
          sampleRate := s.sampleRate % 2 ^ 20
          nbChannels := ((((s.nbChannels : Int) - 1)) % 8).toNat + 1
          bitsPerSample := ((((s.bitsPerSample : Int) - 1)) % 32).toNat + 1
          totalSamples := s.totalSamples % 2 ^ 36
          md5 := s.md5 ++ List.replicate (16 - s.md5.length) 0 } := by
  cases hwrite : StreamInfo.write s with
  | none =>
    rw [StreamInfo.write, if_neg (by omega)] at hwrite
    exact absurd hwrite (by simp)
  | some bytes =>
    refine ⟨bytes, rfl, ?_⟩
    rw [StreamInfo.write, if_neg (by omega)] at hwrite
    simp only [Option.some.injEq] at hwrite
    subst hwrite
    set cf := ((((s.nbChannels : Int) - 1)) % 8).toNat with hcf_def
    set bf := ((((s.bitsPerSample : Int) - 1)) % 32).toNat with hbf_def
    have hcf : cf < 8 := by
      have h1 := Int.emod_nonneg ((s.nbChannels : Int) - 1)
        (by norm_num : (8 : Int) ≠ 0)
      have h2 := Int.emod_lt_of_pos ((s.nbChannels : Int) - 1)
        (by norm_num : (0 : Int) < 8)
      omega
    have hbf : bf < 32 := by
      have h1 := Int.emod_nonneg ((s.bitsPerSample : Int) - 1)
        (by norm_num : (32 : Int) ≠ 0)
      have h2 := Int.emod_lt_of_pos ((s.bitsPerSample : Int) - 1)
        (by norm_num : (0 : Int) < 32)
      omega
    set A := beBytes 2 s.minBlockSize with hA
    set B := beBytes 2 s.maxBlockSize with hB
    set C := beBytes 2 (s.minFrameSize % 2 ^ 32 / 256) with hC
    set D := beBytes 1 s.minFrameSize with hD
    set E := beBytes 2 (s.maxFrameSize % 2 ^ 32 / 256 % 256) with hE
    set F := beBytes 1 s.maxFrameSize with hF
    set G := beBytes 8 (s.sampleRate % 2 ^ 20 * 2 ^ 44 + cf * 2 ^ 41
      + bf * 2 ^ 36 + s.totalSamples % 2 ^ 36) with hG
    set Z := List.replicate (16 - s.md5.length) 0 with hZ
    have h0 : getUintBE (A ++ B ++ C ++ D ++ E ++ F ++ G ++ s.md5 ++ Z) 0 2
        = some (beVal A) := by
      rw [show A ++ B ++ C ++ D ++ E ++ F ++ G ++ s.md5 ++ Z
          = [] ++ A ++ (B ++ C ++ D ++ E ++ F ++ G ++ s.md5 ++ Z) from by
        simp]
      exact getUintBE_at' [] A _ 0 2 rfl (by rw [hA]; simp)
    have h2 : getUintBE (A ++ B ++ C ++ D ++ E ++ F ++ G ++ s.md5 ++ Z) 2 2
        = some (beVal B) := by
      rw [show A ++ B ++ C ++ D ++ E ++ F ++ G ++ s.md5 ++ Z
          = A ++ B ++ (C ++ D ++ E ++ F ++ G ++ s.md5 ++ Z) from by
        simp [List.append_assoc]]
      exact getUintBE_at' A B _ 2 2 (by rw [hA]; simp) (by rw [hB]; simp)
    have h4 : getUintBE (A ++ B ++ C ++ D ++ E ++ F ++ G ++ s.md5 ++ Z) 4 2
        = some (beVal C) := by
      rw [show A ++ B ++ C ++ D ++ E ++ F ++ G ++ s.md5 ++ Z
          = (A ++ B) ++ C ++ (D ++ E ++ F ++ G ++ s.md5 ++ Z) from by
        simp [List.append_assoc]]
      exact getUintBE_at' (A ++ B) C _ 4 2 (by rw [hA, hB]; simp)
        (by rw [hC]; simp)
    have h6 : getUintBE (A ++ B ++ C ++ D ++ E ++ F ++ G ++ s.md5 ++ Z) 6 1
        = some (beVal D) := by
      rw [show A ++ B ++ C ++ D ++ E ++ F ++ G ++ s.md5 ++ Z
          = (A ++ B ++ C) ++ D ++ (E ++ F ++ G ++ s.md5 ++ Z) from by
        simp [List.append_assoc]]
      exact getUintBE_at' (A ++ B ++ C) D _ 6 1 (by rw [hA, hB, hC]; simp)
        (by rw [hD]; simp)
    have h7 : getUintBE (A ++ B ++ C ++ D ++ E ++ F ++ G ++ s.md5 ++ Z) 7 2
        = some (beVal E) := by
      rw [show A ++ B ++ C ++ D ++ E ++ F ++ G ++ s.md5 ++ Z
          = (A ++ B ++ C ++ D) ++ E ++ (F ++ G ++ s.md5 ++ Z) from by
        simp [List.append_assoc]]
      exact getUintBE_at' (A ++ B ++ C ++ D) E _ 7 2
        (by rw [hA, hB, hC, hD]; simp) (by rw [hE]; simp)
    have h9 : getUintBE (A ++ B ++ C ++ D ++ E ++ F ++ G ++ s.md5 ++ Z) 9 1
        = some (beVal F) := by
      rw [show A ++ B ++ C ++ D ++ E ++ F ++ G ++ s.md5 ++ Z
          = (A ++ B ++ C ++ D ++ E) ++ F ++ (G ++ s.md5 ++ Z) from by
        simp [List.append_assoc]]
      exact getUintBE_at' (A ++ B ++ C ++ D ++ E) F _ 9 1
        (by rw [hA, hB, hC, hD, hE]; simp) (by rw [hF]; simp)
    have h10 : getUintBE (A ++ B ++ C ++ D ++ E ++ F ++ G ++ s.md5 ++ Z) 10 8
        = some (beVal G) := by
      rw [show A ++ B ++ C ++ D ++ E ++ F ++ G ++ s.md5 ++ Z
          = (A ++ B ++ C ++ D ++ E ++ F) ++ G ++ (s.md5 ++ Z) from by
        simp [List.append_assoc]]
      exact getUintBE_at' (A ++ B ++ C ++ D ++ E ++ F) G _ 10 8
        (by rw [hA, hB, hC, hD, hE, hF]; simp) (by rw [hG]; simp)
    have hmd5 : (A ++ B ++ C ++ D ++ E ++ F ++ G ++ s.md5 ++ Z).drop 18
        = s.md5 ++ Z := by
      rw [show A ++ B ++ C ++ D ++ E ++ F ++ G ++ s.md5 ++ Z
          = (A ++ B ++ C ++ D ++ E ++ F ++ G) ++ (s.md5 ++ Z) from by
        simp [List.append_assoc]]
      exact List.drop_left' (by rw [hA, hB, hC, hD, hE, hF, hG]; simp)
    simp only [StreamInfo.load, Option.bind_eq_bind]
    rw [h0, h2, h4, h6, h7, h9, h10]
    simp only [Option.some_bind, Option.pure_def, hmd5, Option.some.injEq,
      StreamInfo.mk.injEq]
    have hG8 : beVal G = s.sampleRate % 2 ^ 20 * 2 ^ 44 + cf * 2 ^ 41
        + bf * 2 ^ 36 + s.totalSamples % 2 ^ 36 := by
      rw [hG, beVal_beBytes]
      have h8 : (256 : Nat) ^ 8 = 2 ^ 64 := by norm_num
      rw [h8]
      omega
    refine ⟨?_, ?_, ?_, ?_, ?_, ?_, ?_, ?_, trivial⟩
    · rw [hA, beVal_beBytes]; norm_num
    · rw [hB, beVal_beBytes]; norm_num
    · rw [hC, hD, beVal_beBytes, beVal_beBytes]; norm_num
    · rw [hE, hF, beVal_beBytes, beVal_beBytes]
      have h2e : (256 : Nat) ^ 2 = 65536 := by norm_num
      rw [h2e]
      omega
    · rw [hG8]; omega
    · rw [hG8]; omega
    · rw [hG8]; omega
    · rw [hG8]; omega

theorem streaminfo_write_masks_fields_witness :
    ∃ bytes, StreamInfo.write ⟨1, 1, 1, 1, 1, 9, 33, 1, []⟩ = some bytes ∧
      StreamInfo.load bytes = some ⟨1, 1, 1, 1, 1, 1, 1, 1, List.replicate 16 0⟩ :=
  streaminfo_write_masks_fields ⟨1, 1, 1, 1, 1, 9, 33, 1, []⟩ (by decide)

/-! ## Claims about block ordering and continuation flags in save -/

theorem emit_length (ws : List (BlockType × List Nat)) :
    (FLAC.emit ws).length = ws.length := by
  induction ws with
  | nil => rfl
  | cons p rest ih =>
    obtain ⟨t, d⟩ := p
    simp [FLAC.emit, ih]

theorem headerTypeByte_div_128 (t : BlockType) (b : Bool) :
    headerTypeByte t b % 256 / 128 = if b then 1 else 0 := by
  cases b <;> cases t <;> decide

theorem writtenBlocks_spec (md : List MetadataBlock)
    (ws : List (BlockType × List Nat)) (h : FLAC.writtenBlocks md = some ws) :
    List.Forall₂ (fun b p => b.TYPE = p.1 ∧ b.write = some p.2)
      (md.filter (fun b => b.TYPE ≠ .padding)) ws := by
  induction md generalizing ws with
  | nil =>
    simp only [FLAC.writtenBlocks, Option.some.injEq] at h
    subst h
    simp
  | cons b rest ih =>
    simp only [FLAC.writtenBlocks, Option.bind_eq_bind] at h
    cases hwb : b.write with
    | none => rw [hwb] at h; simp at h
    | some d =>
      rw [hwb] at h
      cases hrest : FLAC.writtenBlocks rest with
      | none => rw [hrest] at h; simp at h
      | some tail =>
        rw [hrest] at h
        simp only [Option.some_bind] at h
        by_cases hpad : b.TYPE = .padding
        · rw [if_pos hpad] at h
          simp only [Option.pure_def, Option.some.injEq] at h
          subst h
          simp only [List.filter_cons, hpad]
          simpa using ih tail hrest
        · rw [if_neg hpad] at h
          simp only [Option.pure_def, Option.some.injEq] at h
          subst h
          simp only [List.filter_cons]
          rw [if_pos (by simpa using hpad)]
          exact List.Forall₂.cons ⟨rfl, hwb⟩ (ih tail hrest)

/-- C8: a successful save writes exactly the non-Padding blocks, in their
original relative order, each paired with its own encoded body; and the
top bit of the written header words is set on precisely the last written
header (continuation flag recomputed), assuming the bodies fit the 24-bit
length field's intent (length below 2^31, so the length cannot spill into
bit 31). -/
theorem save_writes_nonpadding_in_order_flag_last (md : List MetadataBlock)
    (ws : List (BlockType × List Nat)) (h : FLAC.writtenBlocks md = some ws)
    (hlen : ∀ p ∈ ws, (p.2).length < 2 ^ 31) :
    List.Forall₂ (fun b p => b.TYPE = p.1 ∧ b.write = some p.2)
        (md.filter (fun b => b.TYPE ≠ .padding)) ws
    ∧ ∀ i (hi : i < (FLAC.emit ws).length),
        ((FLAC.emit ws).get ⟨i, hi⟩).1 / 2 ^ 31
          = if i = ws.length - 1 then 1 else 0 := by
  refine ⟨writtenBlocks_spec md ws h, ?_⟩
  clear h
  induction ws with
  | nil => intro i hi; simp [FLAC.emit] at hi
  | cons p rest ih =>
    obtain ⟨t, d⟩ := p
    intro i hi
    have hd : d.length < 2 ^ 31 := by
      simpa using hlen (t, d) (List.mem_cons_self _ _)
    cases i with
    | zero =>
      simp only [FLAC.emit, List.get]
      rw [encodeBlockHeader_flag _ _ (by rw [Nat.mod_eq_of_lt (by omega)]; exact hd),
        headerTypeByte_div_128]
      cases rest with
      | nil => simp
      | cons q qs => simp [List.isEmpty_cons]
    | succ j =>
      have hj : j < (FLAC.emit rest).length := by
        simp only [FLAC.emit, List.length_cons] at hi
        omega
      have hrec := ih (fun q hq => hlen q (List.mem_cons_of_mem _ hq)) j hj
      simp only [FLAC.emit, List.get]
      rw [hrec]
      have hjlen : j < rest.length := by rw [emit_length] at hj; exact hj
      have hiff : (j + 1 = rest.length + 1 - 1) ↔ (j = rest.length - 1) := by omega
      rw [List.length_cons, if_congr hiff.symm rfl rfl]

theorem save_writes_nonpadding_in_order_flag_last_witness :
    List.Forall₂ (fun b p => b.TYPE = p.1 ∧ b.write = some p.2)
        (([MetadataBlock.padding 2, MetadataBlock.cueSheet [5, 6],
            MetadataBlock.application ⟨7, [9]⟩]).filter
          (fun b => b.TYPE ≠ .padding))
        [(BlockType.cuesheet, [5, 6]), (BlockType.application, [0, 0, 0, 7, 9])]
    ∧ ∀ i (hi : i < (FLAC.emit [(BlockType.cuesheet, [5, 6]),
          (BlockType.application, [0, 0, 0, 7, 9])]).length),
        ((FLAC.emit [(BlockType.cuesheet, [5, 6]),
            (BlockType.application, [0, 0, 0, 7, 9])]).get ⟨i, hi⟩).1 / 2 ^ 31
          = if i = ([(BlockType.cuesheet, [5, 6]),
              (BlockType.application, [0, 0, 0, 7, 9])] :
                List (BlockType × List Nat)).length - 1 then 1 else 0 :=
  save_writes_nonpadding_in_order_flag_last
    [MetadataBlock.padding 2, MetadataBlock.cueSheet [5, 6],
      MetadataBlock.application ⟨7, [9]⟩]
    [(BlockType.cuesheet, [5, 6]), (BlockType.application, [0, 0, 0, 7, 9])]
    (by decide) (by decide)


/-! ## Claims about comments without a separator -/

theorem splitEq2_no_sep (text : List Nat) (h : ¬ 61 ∈ text) :
    splitEq2 text = (text, none) := by
  have htake : text.takeWhile (fun b => !decide (b = 61)) = text := by
    rw [List.takeWhile_eq_self_iff.mpr]
    intro a ha
    have hne : a ≠ 61 := fun e => h (by rw [← e]; exact ha)
    simp [hne]
  simp [splitEq2, htake]

theorem loadComments_encoded (texts : List (List Nat)) :
    ∀ (pre : List Nat) (tags : TagMap), (∀ t ∈ texts, t.length < 2 ^ 32) →
      VorbisComment.loadComments
          (pre ++ (texts.map (fun t => leBytes 4 t.length ++ t)).flatten)
          texts.length pre.length tags
        = some (texts.foldl tagStep tags) := by
  induction texts with
  | nil =>
    intro pre tags h
    simp [VorbisComment.loadComments]
  | cons t ts ih =>
    intro pre tags h
    simp only [List.map_cons, List.flatten_cons, List.length_cons,
      List.foldl_cons]
    simp only [VorbisComment.loadComments, Option.bind_eq_bind]
    have hread : getU32LE (pre ++ ((leBytes 4 t.length ++ t)
        ++ (ts.map (fun u => leBytes 4 u.length ++ u)).flatten)) pre.length
        = some t.length := by
      rw [show pre ++ ((leBytes 4 t.length ++ t)
            ++ (ts.map (fun u => leBytes 4 u.length ++ u)).flatten)
          = pre ++ leBytes 4 t.length
            ++ (t ++ (ts.map (fun u => leBytes 4 u.length ++ u)).flatten) from by
        simp [List.append_assoc]]
      rw [getU32LE_at' pre _ _ pre.length rfl (by simp), leVal_leBytes]
      congr 1
      have : (256 : Nat) ^ 4 = 2 ^ 32 := by norm_num
      rw [this]
      exact Nat.mod_eq_of_lt (h t (List.mem_cons_self _ _))
    rw [hread]
    simp only [Option.some_bind]
    have hslice : ((pre ++ ((leBytes 4 t.length ++ t)
        ++ (ts.map (fun u => leBytes 4 u.length ++ u)).flatten)).drop
          (pre.length + 4)).take t.length = t := by
      rw [show pre ++ ((leBytes 4 t.length ++ t)
            ++ (ts.map (fun u => leBytes 4 u.length ++ u)).flatten)
          = (pre ++ leBytes 4 t.length)
            ++ (t ++ (ts.map (fun u => leBytes 4 u.length ++ u)).flatten) from by
        simp [List.append_assoc]]
      rw [List.drop_left' (by simp), List.take_left' rfl]
    rw [hslice]
    have hdata : pre ++ ((leBytes 4 t.length ++ t)
          ++ (ts.map (fun u => leBytes 4 u.length ++ u)).flatten)
        = (pre ++ leBytes 4 t.length ++ t)
          ++ (ts.map (fun u => leBytes 4 u.length ++ u)).flatten := by
      simp [List.append_assoc]
    have hoff : pre.length + 4 + t.length
        = (pre ++ leBytes 4 t.length ++ t).length := by
      simp only [List.length_append, leBytes_length]
    rw [hdata, hoff,
      ih (pre ++ leBytes 4 t.length ++ t) _
        (fun u hu => h u (List.mem_cons_of_mem _ hu))]
    rfl

theorem tagLookup_mem_tagInsert (tags : TagMap) (k2 key : List Nat)
    (v2 v0 : Option (List Nat))
    (h : ∃ vs, tagLookup tags key = some vs ∧ v0 ∈ vs) :
    ∃ vs, tagLookup (tagInsert tags k2 v2) key = some vs ∧ v0 ∈ vs := by
  obtain ⟨vs, hvs, hmem⟩ := h
  by_cases hk : k2 = key
  · subst hk
    rw [tagLookup_tagInsert]
    exact ⟨_, rfl, by rw [hvs]; simpa using Or.inl hmem⟩
  · rw [tagLookup_tagInsert_ne tags k2 key v2 hk]
    exact ⟨vs, hvs, hmem⟩

theorem tagLookup_mem_foldl (ts : List (List Nat)) :
    ∀ (tags : TagMap) (key : List Nat) (v0 : Option (List Nat)),
      (∃ vs, tagLookup tags key = some vs ∧ v0 ∈ vs) →
      ∃ vs, tagLookup (ts.foldl tagStep tags) key = some vs ∧ v0 ∈ vs := by
  induction ts with
  | nil => intro tags key v0 h; simpa using h
  | cons t ts ih =>
    intro tags key v0 h
    simp only [List.foldl_cons]
    exact ih _ key v0 (tagLookup_mem_tagInsert _ _ _ _ _ h)

/-- C10: a comment entry whose text has no "=" separator does not make
decoding fail.  For any well-formed body containing such an entry, load
succeeds, and the entry is filed under the whole lower-cased text as key
with an absent (undefined) value appended to that key's value sequence —
so the tag mapping can hold keys with no defined value. -/
theorem vorbis_comment_without_separator (vendor text : List Nat)
    (ts1 ts2 : List (List Nat)) (hv : vendor.length < 2 ^ 32)
    (hc : (ts1 ++ text :: ts2).length < 2 ^ 32)
    (ht : ∀ t ∈ ts1 ++ text :: ts2, t.length < 2 ^ 32)
    (hn : ¬ 61 ∈ text) :
    ∃ tags, VorbisComment.load (vorbisBody vendor (ts1 ++ text :: ts2))
        = some ⟨vendor, tags⟩
      ∧ ∃ vs, tagLookup tags (text.map toLowerByte) = some vs ∧ none ∈ vs := by
  simp only [VorbisComment.load, vorbisBody, Option.bind_eq_bind]
  have hvread : getU32LE (leBytes 4 vendor.length ++ vendor
      ++ leBytes 4 (ts1 ++ text :: ts2).length
      ++ ((ts1 ++ text :: ts2).map (fun t => leBytes 4 t.length ++ t)).flatten) 0
      = some vendor.length := by
    rw [show leBytes 4 vendor.length ++ vendor
          ++ leBytes 4 (ts1 ++ text :: ts2).length
          ++ ((ts1 ++ text :: ts2).map (fun t => leBytes 4 t.length ++ t)).flatten
        = [] ++ leBytes 4 vendor.length ++ (vendor
          ++ (leBytes 4 (ts1 ++ text :: ts2).length
            ++ ((ts1 ++ text :: ts2).map (fun t => leBytes 4 t.length ++ t)).flatten)) from by
      simp [List.append_assoc]]
    rw [getU32LE_at' [] _ _ 0 rfl (by simp), leVal_leBytes]
    congr 1
    have : (256 : Nat) ^ 4 = 2 ^ 32 := by norm_num
    rw [this]
    exact Nat.mod_eq_of_lt hv
  rw [hvread]
  simp only [Option.some_bind]
  have hvslice : ((leBytes 4 vendor.length ++ vendor
      ++ leBytes 4 (ts1 ++ text :: ts2).length
      ++ ((ts1 ++ text :: ts2).map (fun t => leBytes 4 t.length ++ t)).flatten).drop
        4).take vendor.length = vendor := by
    rw [show leBytes 4 vendor.length ++ vendor
          ++ leBytes 4 (ts1 ++ text :: ts2).length
          ++ ((ts1 ++ text :: ts2).map (fun t => leBytes 4 t.length ++ t)).flatten
        = leBytes 4 vendor.length ++ (vendor
          ++ (leBytes 4 (ts1 ++ text :: ts2).length
            ++ ((ts1 ++ text :: ts2).map (fun t => leBytes 4 t.length ++ t)).flatten)) from by
      simp [List.append_assoc]]
    rw [List.drop_left' (by simp),
      show vendor ++ (leBytes 4 (ts1 ++ text :: ts2).length
          ++ ((ts1 ++ text :: ts2).map (fun t => leBytes 4 t.length ++ t)).flatten)
        = vendor ++ (leBytes 4 (ts1 ++ text :: ts2).length
          ++ ((ts1 ++ text :: ts2).map (fun t => leBytes 4 t.length ++ t)).flatten) from rfl,
      List.take_left' rfl]
  rw [hvslice]
  have hcread : getU32LE (leBytes 4 vendor.length ++ vendor
      ++ leBytes 4 (ts1 ++ text :: ts2).length
      ++ ((ts1 ++ text :: ts2).map (fun t => leBytes 4 t.length ++ t)).flatten)
      (4 + vendor.length)
      = some (ts1 ++ text :: ts2).length := by
    rw [show leBytes 4 vendor.length ++ vendor
          ++ leBytes 4 (ts1 ++ text :: ts2).length
          ++ ((ts1 ++ text :: ts2).map (fun t => leBytes 4 t.length ++ t)).flatten
        = (leBytes 4 vendor.length ++ vendor)
          ++ leBytes 4 (ts1 ++ text :: ts2).length
          ++ ((ts1 ++ text :: ts2).map (fun t => leBytes 4 t.length ++ t)).flatten from by
      simp [List.append_assoc]]
    rw [getU32LE_at' (leBytes 4 vendor.length ++ vendor) _ _ (4 + vendor.length)
      (by simp) (by simp), leVal_leBytes]
    congr 1
    have : (256 : Nat) ^ 4 = 2 ^ 32 := by norm_num
    rw [this]
    exact Nat.mod_eq_of_lt hc
  rw [hcread]
  simp only [Option.some_bind]
  have hcomments := loadComments_encoded (ts1 ++ text :: ts2)
    (leBytes 4 vendor.length ++ vendor ++ leBytes 4 (ts1 ++ text :: ts2).length)
    [] ht
  rw [show (leBytes 4 vendor.length ++ vendor
        ++ leBytes 4 (ts1 ++ text :: ts2).length).length = 4 + vendor.length + 4 from by
    simp only [List.length_append, leBytes_length]] at hcomments
  rw [show leBytes 4 vendor.length ++ vendor
        ++ leBytes 4 (ts1 ++ text :: ts2).length
        ++ ((ts1 ++ text :: ts2).map (fun t => leBytes 4 t.length ++ t)).flatten
      = leBytes 4 vendor.length ++ vendor ++ leBytes 4 (ts1 ++ text :: ts2).length
        ++ ((ts1 ++ text :: ts2).map (fun t => leBytes 4 t.length ++ t)).flatten from rfl,
    hcomments]
  simp only [Option.some_bind, Option.pure_def, Option.some.injEq]
  refine ⟨(ts1 ++ text :: ts2).foldl tagStep [], rfl, ?_⟩
  rw [List.foldl_append, List.foldl_cons]
  refine tagLookup_mem_foldl ts2 _ _ none ?_
  rw [show tagStep (ts1.foldl tagStep []) text
      = tagInsert (ts1.foldl tagStep []) (text.map toLowerByte) none from by
    rw [tagStep, splitEq2_no_sep text hn]]
  rw [tagLookup_tagInsert]
  exact ⟨_, rfl, by simp⟩

theorem vorbis_comment_without_separator_witness :
    ∃ tags, VorbisComment.load (vorbisBody [] ([] ++ [70, 79, 79] :: []))
        = some ⟨[], tags⟩
      ∧ ∃ vs, tagLookup tags ([70, 79, 79].map toLowerByte) = some vs
          ∧ none ∈ vs :=
  vorbis_comment_without_separator [] [70, 79, 79] [] []
    (by decide) (by decide) (by decide) (by decide)

end Dune
